import Mathlib

/-!
Verification of the calendar-feed-aggregator core against its design notes.

We give a shallow embedding of the Go source:
  - `FetchICS` (fetcher.go): a line-oriented scanner that reads an HTTP
    response body with `bufio.Reader.ReadString` and extracts VEVENT blocks.
  - `aggregateICS` (main.go): a fan-in stage launching one `FetchICS`
    goroutine per URL, all writing to one shared channel that is closed
    after a `WaitGroup.Wait` on all fetchers.
  - `combineCalendars` (main.go): merging two parsed calendars and sorting
    the events with `sort.Slice` on the raw DTSTART strings.

Go strings are modelled as `List Char`; machine I/O is modelled by the
prefix of bytes successfully delivered plus how the stream ends.
-/

/-- Go strings of the program are modelled as lists of characters. -/
abbrev Str : Type := List Char

namespace Fetcher

/-- The begin-marker line with a carriage-return line-feed terminator,
from the literal comparison on line 46 of fetcher.go. -/
def beginCRLF : Str := "BEGIN:VEVENT\r\n".toList

/-- The begin-marker line with a bare line-feed terminator. -/
def beginLF : Str := "BEGIN:VEVENT\n".toList

/-- The end-marker line with a carriage-return line-feed terminator,
from the literal comparison on line 55 of fetcher.go. -/
def endCRLF : Str := "END:VEVENT\r\n".toList

/-- The end-marker line with a bare line-feed terminator. -/
def endLF : Str := "END:VEVENT\n".toList

/-- The test on line 46 of fetcher.go:
`line == "BEGIN:VEVENT\r\n" || line == "BEGIN:VEVENT\n"`. -/
def isBeginLine (line : Str) : Bool :=
  decide (line = beginCRLF ∨ line = beginLF)

/-- The test on line 55 of fetcher.go:
`line == "END:VEVENT\r\n" || line == "END:VEVENT\n"`. -/
def isEndLine (line : Str) : Bool :=
  decide (line = endCRLF ∨ line = endLF)

/-- The mutable loop state of `FetchICS`: the flag `inEvent` and the
accumulation buffer `event` (called `buf` here). -/
structure ExtractorState where
  inEvent : Bool
  buf : Str
  deriving DecidableEq

/-- One iteration of the scan loop of `FetchICS` on a terminated line:
the begin-marker test comes first (lines 46-50), then the `inEvent`
accumulation with the end-marker test (lines 53-59).  Returns the new
state and the units sent on the channel by this iteration. -/
def step (st : ExtractorState) (line : Str) : ExtractorState × List Str :=
  if isBeginLine line then
    ({ inEvent := true, buf := line }, [])
  else if st.inEvent then
    let buf' := st.buf ++ line
    if isEndLine line then
      ({ inEvent := false, buf := [] }, [buf'])
    else
      ({ inEvent := true, buf := buf' }, [])
  else
    (st, [])

/-- The scan loop of `FetchICS` over the successive terminated lines,
collecting the emitted units in order. -/
def runLines : ExtractorState → List Str → ExtractorState × List Str
  | st, [] => (st, [])
  | st, l :: ls =>
    let p := step st l
    let q := runLines p.1 ls
    (q.1, p.2 ++ q.2)

/-- Splitting a byte stream as `bufio.Reader.ReadString` delivers it:
the terminated lines (each including its final line feed) in order,
plus the trailing bytes after the last line feed.  `ReadString` returns
those trailing bytes only together with a non-nil error, and `FetchICS`
discards the data in both of its error branches (lines 37-43). -/
def splitLinesAux : List Char → List Char → List Str × List Char
  | [], acc => ([], acc.reverse)
  | c :: cs, acc =>
    if c = '\n' then
      let r := splitLinesAux cs []
      ((acc.reverse ++ [c]) :: r.1, r.2)
    else
      splitLinesAux cs (c :: acc)

/-- The terminated lines of a stream and its unterminated tail. -/
def splitLines (cs : List Char) : List Str × List Char :=
  splitLinesAux cs []

/-- How a response body stream ends after its successfully delivered
bytes: normal end of stream, or a read error. -/
inductive EndKind where
  | eof : EndKind
  | readError : EndKind
  deriving DecidableEq

/-- A response body: the bytes `bufio` successfully delivers, and how
the stream ends afterwards. -/
structure ByteStream where
  chars : List Char
  endKind : EndKind
  deriving DecidableEq

/-- The sentinel of the connection-failure branch (line 26 of fetcher.go). -/
def errFetch (url : Str) : Str := "Error fetching URL: ".toList ++ url

/-- The sentinel of the body-read-failure branch (line 38 of fetcher.go). -/
def errRead (url : Str) : Str := "Error reading response body: ".toList ++ url

/-- The scan of one response body by `FetchICS` (lines 31-66): run the
loop over the terminated lines; on end of stream flush a non-empty
buffer (lines 63-66); on a read error send the sentinel and return
without flushing (lines 37-40). -/
def scanBody (url : Str) (body : ByteStream) : List Str :=
  let r := runLines { inEvent := false, buf := [] } (splitLines body.chars).1
  match body.endKind with
  | EndKind.eof => r.2 ++ (if r.1.buf = [] then [] else [r.1.buf])
  | EndKind.readError => r.2 ++ [errRead url]

/-- `FetchICS url conn`: the sequence of units sent to `eventChan` by one
call, where `conn = none` models `http.Get` failing (lines 24-28) and
`conn = some body` models a successful connection delivering `body`. -/
def FetchICS (url : Str) (conn : Option ByteStream) : List Str :=
  match conn with
  | none => [errFetch url]
  | some body => scanBody url body

example :
    FetchICS "u".toList
      (some ⟨"BEGIN:VEVENT\nSUMMARY:X\nEND:VEVENT\n".toList, EndKind.eof⟩) =
      ["BEGIN:VEVENT\nSUMMARY:X\nEND:VEVENT\n".toList] := by decide

example :
    FetchICS "u".toList (some ⟨"BEGIN:VEVENT\n".toList, EndKind.eof⟩) =
      ["BEGIN:VEVENT\n".toList] := by decide

example :
    FetchICS "u".toList (some ⟨"BEGIN:VEVENT\nEND:VEVENT".toList, EndKind.eof⟩) =
      ["BEGIN:VEVENT\n".toList] := by decide

example :
    FetchICS "u".toList
      (some ⟨"BEGIN:VEVENT\r\nA\r\nEND:VEVENT\r\n".toList, EndKind.eof⟩) =
      ["BEGIN:VEVENT\r\nA\r\nEND:VEVENT\r\n".toList] := by decide

example :
    FetchICS "u".toList (some ⟨"BEGIN:VEVENT\nA\n".toList, EndKind.readError⟩) =
      [errRead "u".toList] := by decide

example : FetchICS "u".toList none = [errFetch "u".toList] := by decide

/-- Decidable test that `p` is an initial segment of `s`. -/
def hasPre (p s : Str) : Bool := decide (s.take p.length = p)

/-- Decidable test that `p` is a final segment of `s`. -/
def hasSuf (p s : Str) : Bool := decide (s.drop (s.length - p.length) = p)

theorem hasPre_iff {p s : Str} : hasPre p s = true ↔ ∃ r, s = p ++ r := by
  unfold hasPre
  rw [decide_eq_true_iff]
  constructor
  · intro h
    exact ⟨s.drop p.length, by conv_lhs => rw [← List.take_append_drop p.length s, h]⟩
  · rintro ⟨r, rfl⟩
    exact List.take_left p r

theorem hasSuf_iff {p s : Str} : hasSuf p s = true ↔ ∃ r, s = r ++ p := by
  unfold hasSuf
  rw [decide_eq_true_iff]
  constructor
  · intro h
    exact ⟨s.take (s.length - p.length),
      by conv_lhs => rw [← List.take_append_drop (s.length - p.length) s, h]⟩
  · rintro ⟨r, rfl⟩
    rw [List.length_append, Nat.add_sub_cancel]
    exact List.drop_left r p

/-- A unit starts with a begin-marker line (either terminator style). -/
def startsBeginB (u : Str) : Bool := hasPre beginCRLF u || hasPre beginLF u

/-- A unit ends with an end-marker line (either terminator style). -/
def endsEndB (u : Str) : Bool := hasSuf endCRLF u || hasSuf endLF u

theorem startsBeginB_append {b : Str} (x : Str) (h : startsBeginB b = true) :
    startsBeginB (b ++ x) = true := by
  unfold startsBeginB at *
  rcases Bool.or_eq_true_iff.1 h with h1 | h1
  · rcases hasPre_iff.1 h1 with ⟨r, rfl⟩
    exact Bool.or_eq_true_iff.2 (Or.inl (hasPre_iff.2 ⟨r ++ x, by simp⟩))
  · rcases hasPre_iff.1 h1 with ⟨r, rfl⟩
    exact Bool.or_eq_true_iff.2 (Or.inr (hasPre_iff.2 ⟨r ++ x, by simp⟩))

theorem isBeginLine_startsBeginB {l : Str} (h : isBeginLine l = true) :
    startsBeginB l = true := by
  unfold isBeginLine at h
  rcases decide_eq_true_iff.1 h with rfl | rfl
  · exact Bool.or_eq_true_iff.2 (Or.inl (hasPre_iff.2 ⟨[], by simp⟩))
  · exact Bool.or_eq_true_iff.2 (Or.inr (hasPre_iff.2 ⟨[], by simp⟩))

theorem isEndLine_endsEndB {b l : Str} (h : isEndLine l = true) :
    endsEndB (b ++ l) = true := by
  unfold isEndLine at h
  rcases decide_eq_true_iff.1 h with rfl | rfl
  · exact Bool.or_eq_true_iff.2 (Or.inl (hasSuf_iff.2 ⟨b, rfl⟩))
  · exact Bool.or_eq_true_iff.2 (Or.inr (hasSuf_iff.2 ⟨b, rfl⟩))

/-- The loop invariant of `FetchICS`: while `inEvent` is set the buffer
starts with a begin-marker line, and while it is clear the buffer is
empty. -/
def GoodState (st : ExtractorState) : Prop :=
  (st.inEvent = true → startsBeginB st.buf = true) ∧
  (st.inEvent = false → st.buf = [])

theorem step_begin {st : ExtractorState} {l : Str} (hb : isBeginLine l = true) :
    step st l = ({ inEvent := true, buf := l }, []) := by
  simp [step, hb]

theorem step_inEvent_end {st : ExtractorState} {l : Str} (hb : isBeginLine l = false)
    (hi : st.inEvent = true) (he : isEndLine l = true) :
    step st l = ({ inEvent := false, buf := [] }, [st.buf ++ l]) := by
  simp [step, hb, hi, he]

theorem step_inEvent_mid {st : ExtractorState} {l : Str} (hb : isBeginLine l = false)
    (hi : st.inEvent = true) (he : isEndLine l = false) :
    step st l = ({ inEvent := true, buf := st.buf ++ l }, []) := by
  simp [step, hb, hi, he]

theorem step_idle {st : ExtractorState} {l : Str} (hb : isBeginLine l = false)
    (hi : st.inEvent = false) :
    step st l = (st, []) := by
  simp [step, hb, hi]

theorem step_good {st : ExtractorState} (l : Str) (h : GoodState st) :
    GoodState (step st l).1 ∧
      ∀ u ∈ (step st l).2, startsBeginB u = true ∧ endsEndB u = true := by
  cases hb : isBeginLine l with
  | true =>
    rw [step_begin hb]
    exact ⟨⟨fun _ => isBeginLine_startsBeginB hb, by simp⟩, by simp⟩
  | false =>
    cases hi : st.inEvent with
    | false =>
      rw [step_idle hb hi]
      exact ⟨h, by simp⟩
    | true =>
      cases he : isEndLine l with
      | false =>
        rw [step_inEvent_mid hb hi he]
        exact ⟨⟨fun _ => startsBeginB_append l (h.1 hi), by simp⟩, by simp⟩
      | true =>
        rw [step_inEvent_end hb hi he]
        refine ⟨⟨by simp, fun _ => rfl⟩, ?_⟩
        intro u hu
        rw [List.mem_singleton] at hu
        subst hu
        exact ⟨startsBeginB_append l (h.1 hi), isEndLine_endsEndB he⟩

theorem runLines_good {st : ExtractorState} (ls : List Str) (h : GoodState st) :
    GoodState (runLines st ls).1 ∧
      ∀ u ∈ (runLines st ls).2, startsBeginB u = true ∧ endsEndB u = true := by
  induction ls generalizing st with
  | nil => exact ⟨h, by simp [runLines]⟩
  | cons l ls ih =>
    obtain ⟨h1, h2⟩ := step_good l h
    obtain ⟨h3, h4⟩ := ih h1
    refine ⟨h3, ?_⟩
    intro u hu
    simp only [runLines, List.mem_append] at hu
    rcases hu with hu | hu
    · exact h2 u hu
    · exact h4 u hu

/-- The initial loop state of `FetchICS`: `inEvent = false`, empty buffer. -/
def initState : ExtractorState := { inEvent := false, buf := [] }

theorem initState_good : GoodState initState := ⟨by simp [initState], fun _ => rfl⟩

/-- The extractor run of a stream: final state and emitted units. -/
def runStream (chars : List Char) : ExtractorState × List Str :=
  runLines initState (splitLines chars).1

/-- C1: on the happy path (successful connection, normal end of stream)
every unit emitted by `FetchICS` other than the single possible trailing
flush starts with a begin-marker line and ends with an end-marker line;
the trailing flush unit is emitted at most once, also starts with the
begin-marker line, and only exists when the stream ends while an event
is being accumulated (`inEvent` still set). -/
theorem fetchICS_happy_path_units (url : Str) (chars : List Char) :
    FetchICS url (some ⟨chars, EndKind.eof⟩) =
      (runStream chars).2 ++
        (if (runStream chars).1.buf = [] then [] else [(runStream chars).1.buf]) ∧
    (∀ u ∈ (runStream chars).2, startsBeginB u = true ∧ endsEndB u = true) ∧
    ((runStream chars).1.buf ≠ [] →
      startsBeginB (runStream chars).1.buf = true ∧
        (runStream chars).1.inEvent = true) := by
  obtain ⟨hg, hu⟩ := runLines_good (splitLines chars).1 initState_good
  refine ⟨rfl, hu, ?_⟩
  intro hne
  have hi : (runStream chars).1.inEvent = true := by
    by_contra hcon
    exact hne (hg.2 (Bool.not_eq_true _ ▸ hcon))
  exact ⟨hg.1 hi, hi⟩

/-- Witness for C1 at a concrete stream holding one complete event
followed by a dangling begin-marker line: the completed unit is
well-formed and the trailing flush clause applies. -/
theorem fetchICS_happy_path_units_witness :
    (startsBeginB "BEGIN:VEVENT\nEND:VEVENT\n".toList = true ∧
        endsEndB "BEGIN:VEVENT\nEND:VEVENT\n".toList = true) ∧
      startsBeginB
          (runStream "BEGIN:VEVENT\nEND:VEVENT\nBEGIN:VEVENT\n".toList).1.buf = true ∧
        (runStream "BEGIN:VEVENT\nEND:VEVENT\nBEGIN:VEVENT\n".toList).1.inEvent = true :=
  ⟨(fetchICS_happy_path_units "u".toList
      "BEGIN:VEVENT\nEND:VEVENT\nBEGIN:VEVENT\n".toList).2.1 _ (by decide),
   (fetchICS_happy_path_units "u".toList
      "BEGIN:VEVENT\nEND:VEVENT\nBEGIN:VEVENT\n".toList).2.2 (by decide)⟩

/-- C4 counterexample: in state InEvent, a scanned line equal to the
begin-marker is NOT appended to the current accumulation buffer — the
begin-marker test on line 46 of fetcher.go runs before the `inEvent`
test, so the buffer is restarted at just that line. -/
theorem step_inEvent_begin_not_appended :
    (step { inEvent := true, buf := "BEGIN:VEVENT\nX\n".toList }
        "BEGIN:VEVENT\n".toList).1.buf ≠
      "BEGIN:VEVENT\nX\n".toList ++ "BEGIN:VEVENT\n".toList := by decide

/-- C4 amended: while in the InEvent state, a line equal to the
begin-marker restarts the accumulation buffer with just that line
(the prior accumulation is discarded, nothing is emitted); a line equal
to the end-marker is appended, the buffer is emitted and cleared, and
the state returns to Idle; every other line is appended with the state
staying InEvent. -/
theorem step_inEvent_cases (st : ExtractorState) (line : Str)
    (h : st.inEvent = true) :
    (isBeginLine line = true →
        step st line = ({ inEvent := true, buf := line }, [])) ∧
    (isBeginLine line = false → isEndLine line = true →
        step st line = ({ inEvent := false, buf := [] }, [st.buf ++ line])) ∧
    (isBeginLine line = false → isEndLine line = false →
        step st line = ({ inEvent := true, buf := st.buf ++ line }, [])) :=
  ⟨fun hb => step_begin hb,
   fun hb he => step_inEvent_end hb h he,
   fun hb he => step_inEvent_mid hb h he⟩

/-- Witness for the amended C4 at a concrete InEvent state and an
ordinary content line. -/
theorem step_inEvent_cases_witness :
    (isBeginLine "A\n".toList = true →
        step { inEvent := true, buf := "BEGIN:VEVENT\n".toList } "A\n".toList =
          ({ inEvent := true, buf := "A\n".toList }, [])) ∧
    (isBeginLine "A\n".toList = false → isEndLine "A\n".toList = true →
        step { inEvent := true, buf := "BEGIN:VEVENT\n".toList } "A\n".toList =
          ({ inEvent := false, buf := [] },
            ["BEGIN:VEVENT\n".toList ++ "A\n".toList])) ∧
    (isBeginLine "A\n".toList = false → isEndLine "A\n".toList = false →
        step { inEvent := true, buf := "BEGIN:VEVENT\n".toList } "A\n".toList =
          ({ inEvent := true, buf := "BEGIN:VEVENT\n".toList ++ "A\n".toList }, [])) :=
  step_inEvent_cases { inEvent := true, buf := "BEGIN:VEVENT\n".toList }
    "A\n".toList rfl

/-- C5: when the stream ends (normal end of stream) while an event is
being accumulated, the non-empty partial buffer is emitted as one unit
rather than discarded; in particular a body that is exactly one
terminated begin-marker line yields exactly that one partial unit. -/
theorem fetchICS_flush_partial (url : Str) (chars : List Char)
    (h : (runStream chars).1.buf ≠ []) :
    (runStream chars).1.buf ∈ FetchICS url (some ⟨chars, EndKind.eof⟩) ∧
      FetchICS "u".toList (some ⟨"BEGIN:VEVENT\n".toList, EndKind.eof⟩) =
        ["BEGIN:VEVENT\n".toList] := by
  refine ⟨?_, by decide⟩
  have hdef : FetchICS url (some ⟨chars, EndKind.eof⟩) =
      (runStream chars).2 ++
        (if (runStream chars).1.buf = [] then [] else [(runStream chars).1.buf]) := rfl
  rw [hdef, if_neg h]
  exact List.mem_append_right _ (List.mem_singleton.2 rfl)

/-- Witness for C5 at the truncated-after-begin-marker body. -/
theorem fetchICS_flush_partial_witness :
    (runStream "BEGIN:VEVENT\n".toList).1.buf ∈
        FetchICS "u".toList (some ⟨"BEGIN:VEVENT\n".toList, EndKind.eof⟩) ∧
      FetchICS "u".toList (some ⟨"BEGIN:VEVENT\n".toList, EndKind.eof⟩) =
        ["BEGIN:VEVENT\n".toList] :=
  fetchICS_flush_partial "u".toList "BEGIN:VEVENT\n".toList (by decide)

theorem splitLinesAux_no_newline {t : List Char} (acc : List Char)
    (h : '\n' ∉ t) : (splitLinesAux t acc).1 = [] := by
  induction t generalizing acc with
  | nil => rfl
  | cons c cs ih =>
    simp only [List.mem_cons, not_or] at h
    have hc : ¬(c = '\n') := fun e => h.1 e.symm
    simp only [splitLinesAux, if_neg hc]
    exact ih _ h.2

theorem splitLinesAux_append_no_newline (cs : List Char) {t : List Char}
    (acc : List Char) (h : '\n' ∉ t) :
    (splitLinesAux (cs ++ t) acc).1 = (splitLinesAux cs acc).1 := by
  induction cs generalizing acc with
  | nil =>
    simp only [List.nil_append, splitLinesAux]
    exact splitLinesAux_no_newline acc h
  | cons c cs ih =>
    by_cases hc : c = '\n'
    · subst hc
      show ((acc.reverse ++ ['\n']) :: (splitLinesAux (cs ++ t) []).1) =
        ((acc.reverse ++ ['\n']) :: (splitLinesAux cs []).1)
      exact congrArg _ (ih [])
    · simp only [List.cons_append, splitLinesAux, if_neg hc]
      exact ih _

/-- Appending newline-free bytes to a stream does not change its
terminated lines. -/
theorem splitLines_append_no_newline (cs : List Char) {t : List Char}
    (h : '\n' ∉ t) : (splitLines (cs ++ t)).1 = (splitLines cs).1 :=
  splitLinesAux_append_no_newline cs [] h

/-- C9: bytes after the last line feed are never part of any emitted
unit — `FetchICS` behaves on `chars ++ t` (for newline-free `t`)
exactly as on `chars`, for either way the stream ends; in particular an
unterminated end-marker does not terminate the event, which is flushed
without it. -/
theorem fetchICS_drops_unterminated_tail (url : Str) (chars t : List Char)
    (ek : EndKind) (h : '\n' ∉ t) :
    FetchICS url (some ⟨chars ++ t, ek⟩) = FetchICS url (some ⟨chars, ek⟩) ∧
      FetchICS "u".toList
          (some ⟨"BEGIN:VEVENT\nEND:VEVENT".toList, EndKind.eof⟩) =
        ["BEGIN:VEVENT\n".toList] := by
  refine ⟨?_, by decide⟩
  have hs := splitLines_append_no_newline chars h
  show scanBody url ⟨chars ++ t, ek⟩ = scanBody url ⟨chars, ek⟩
  cases ek <;> simp [scanBody, hs]

/-- Witness for C9: an unterminated end-marker after a terminated
begin-marker line is discarded. -/
theorem fetchICS_drops_unterminated_tail_witness :
    FetchICS "u".toList
        (some ⟨"BEGIN:VEVENT\n".toList ++ "END:VEVENT".toList, EndKind.eof⟩) =
      FetchICS "u".toList (some ⟨"BEGIN:VEVENT\n".toList, EndKind.eof⟩) ∧
      FetchICS "u".toList
          (some ⟨"BEGIN:VEVENT\nEND:VEVENT".toList, EndKind.eof⟩) =
        ["BEGIN:VEVENT\n".toList] :=
  fetchICS_drops_unterminated_tail "u".toList "BEGIN:VEVENT\n".toList
    "END:VEVENT".toList EndKind.eof (by decide)

theorem head_of_hasPre {c : Char} {p u : Str} (h : hasPre (c :: p) u = true) :
    u.head? = some c := by
  rcases hasPre_iff.1 h with ⟨r, rfl⟩
  rfl

theorem startsBeginB_head {u : Str} (h : startsBeginB u = true) :
    u.head? = some 'B' := by
  have hcr : beginCRLF = 'B' :: "EGIN:VEVENT\r\n".toList := by decide
  have hlf : beginLF = 'B' :: "EGIN:VEVENT\n".toList := by decide
  rcases Bool.or_eq_true_iff.1 h with h1 | h1
  · rw [hcr] at h1
    exact head_of_hasPre h1
  · rw [hlf] at h1
    exact head_of_hasPre h1

theorem errRead_head (url : Str) : (errRead url).head? = some 'E' := by
  have h : "Error reading response body: ".toList =
      'E' :: "rror reading response body: ".toList := by decide
  rw [errRead, h]
  rfl

theorem errFetch_head (url : Str) : (errFetch url).head? = some 'E' := by
  have h : "Error fetching URL: ".toList = 'E' :: "rror fetching URL: ".toList := by
    decide
  rw [errFetch, h]
  rfl

/-- C7: on a connection failure `FetchICS` emits exactly the one
sentinel "Error fetching URL: " + url and nothing else; on a body-read
failure it emits the units completed before the failure followed by
exactly the one sentinel "Error reading response body: " + url as the
final unit, and every unit before it is a genuine event block (it starts
with a begin-marker line and is not equal to either sentinel). -/
theorem fetchICS_sentinels (url : Str) (chars : List Char) :
    FetchICS url none = [errFetch url] ∧
    FetchICS url (some ⟨chars, EndKind.readError⟩) =
      (runStream chars).2 ++ [errRead url] ∧
    ∀ u ∈ (runStream chars).2,
      startsBeginB u = true ∧ u ≠ errRead url ∧ u ≠ errFetch url := by
  refine ⟨rfl, rfl, ?_⟩
  intro u hu
  have hb : startsBeginB u = true :=
    ((runLines_good (splitLines chars).1 initState_good).2 u hu).1
  have hhead : u.head? = some 'B' := startsBeginB_head hb
  refine ⟨hb, ?_, ?_⟩
  · intro he
    rw [he, errRead_head url] at hhead
    exact absurd (Option.some.inj hhead) (by decide)
  · intro he
    rw [he, errFetch_head url] at hhead
    exact absurd (Option.some.inj hhead) (by decide)

/-- Witness for C7 at a body holding one complete event before the
read failure. -/
theorem fetchICS_sentinels_witness :
    FetchICS "u".toList none = [errFetch "u".toList] ∧
      FetchICS "u".toList
          (some ⟨"BEGIN:VEVENT\nEND:VEVENT\n".toList, EndKind.readError⟩) =
        (runStream "BEGIN:VEVENT\nEND:VEVENT\n".toList).2 ++ [errRead "u".toList] ∧
      (startsBeginB "BEGIN:VEVENT\nEND:VEVENT\n".toList = true ∧
        "BEGIN:VEVENT\nEND:VEVENT\n".toList ≠ errRead "u".toList ∧
        "BEGIN:VEVENT\nEND:VEVENT\n".toList ≠ errFetch "u".toList) :=
  ⟨(fetchICS_sentinels "u".toList "BEGIN:VEVENT\nEND:VEVENT\n".toList).1,
   (fetchICS_sentinels "u".toList "BEGIN:VEVENT\nEND:VEVENT\n".toList).2.1,
   (fetchICS_sentinels "u".toList "BEGIN:VEVENT\nEND:VEVENT\n".toList).2.2 _
     (by decide)⟩

/-- Erase every carriage return; two units are "semantically equivalent"
when they agree after this erasure. -/
def stripCR (l : Str) : Str := l.filter (fun ch => decide (ch ≠ '\r'))

theorem stripCR_append (a b : Str) : stripCR (a ++ b) = stripCR a ++ stripCR b :=
  List.filter_append ..

theorem stripCR_no_cr {l : Str} (h : '\r' ∉ l) : stripCR l = l :=
  List.filter_eq_self.2 (fun _a ha => decide_eq_true (fun e => h (e ▸ ha)))

theorem stripCR_crlf (c : Str) (h : '\r' ∉ c) :
    stripCR (c ++ ['\r', '\n']) = c ++ ['\n'] := by
  rw [stripCR_append, stripCR_no_cr h]
  rfl

/-- A per-source event body rendered with bare line-feed terminators. -/
def lfLines (cs : List Str) : List Str := cs.map (fun c => c ++ ['\n'])

/-- The same body rendered with carriage-return line-feed terminators. -/
def crlfLines (cs : List Str) : List Str := cs.map (fun c => c ++ ['\r', '\n'])

theorem marker_terminator_eq {c k : Str} (hrc : '\r' ∉ c) (hrk : '\r' ∉ k) :
    decide (c ++ ['\r', '\n'] = k ++ ['\r', '\n'] ∨ c ++ ['\r', '\n'] = k ++ ['\n']) =
      decide (c ++ ['\n'] = k ++ ['\r', '\n'] ∨ c ++ ['\n'] = k ++ ['\n']) := by
  apply decide_eq_decide.2
  constructor
  · rintro (h | h)
    · exact Or.inr (by rw [List.append_cancel_right h])
    · exfalso
      have h' : (c ++ ['\r']) ++ ['\n'] = k ++ ['\n'] := by
        rw [List.append_assoc]
        exact h
      have h2 : c ++ ['\r'] = k := List.append_cancel_right h'
      exact hrk (h2 ▸ List.mem_append_right c (List.mem_singleton.2 rfl))
  · rintro (h | h)
    · exfalso
      have h' : c ++ ['\n'] = (k ++ ['\r']) ++ ['\n'] := by
        rw [List.append_assoc]
        exact h
      have h2 : c = k ++ ['\r'] := List.append_cancel_right h'
      exact hrc (h2 ▸ List.mem_append_right k (List.mem_singleton.2 rfl))
    · exact Or.inl (by rw [List.append_cancel_right h])

theorem isBeginLine_crlf_lf {c : Str} (hr : '\r' ∉ c) :
    isBeginLine (c ++ ['\r', '\n']) = isBeginLine (c ++ ['\n']) := by
  have h1 : beginCRLF = "BEGIN:VEVENT".toList ++ ['\r', '\n'] := by decide
  have h2 : beginLF = "BEGIN:VEVENT".toList ++ ['\n'] := by decide
  unfold isBeginLine
  rw [h1, h2]
  exact marker_terminator_eq hr (by decide)

theorem isEndLine_crlf_lf {c : Str} (hr : '\r' ∉ c) :
    isEndLine (c ++ ['\r', '\n']) = isEndLine (c ++ ['\n']) := by
  have h1 : endCRLF = "END:VEVENT".toList ++ ['\r', '\n'] := by decide
  have h2 : endLF = "END:VEVENT".toList ++ ['\n'] := by decide
  unfold isEndLine
  rw [h1, h2]
  exact marker_terminator_eq hr (by decide)

theorem runLines_cons (st : ExtractorState) (l : Str) (ls : List Str) :
    runLines st (l :: ls) =
      ((runLines (step st l).1 ls).1,
        (step st l).2 ++ (runLines (step st l).1 ls).2) := rfl

/-- Simulation between the carriage-return and bare-line-feed runs of
the extractor: related states stay related and emitted units correspond
up to carriage-return erasure. -/
theorem runLines_crlf_lf (cs : List Str) (h : ∀ c ∈ cs, '\r' ∉ c)
    (stc stl : ExtractorState) (hie : stc.inEvent = stl.inEvent)
    (hbuf : stripCR stc.buf = stl.buf) :
    (runLines stc (crlfLines cs)).1.inEvent =
        (runLines stl (lfLines cs)).1.inEvent ∧
      stripCR (runLines stc (crlfLines cs)).1.buf =
        (runLines stl (lfLines cs)).1.buf ∧
      (runLines stc (crlfLines cs)).2.map stripCR =
        (runLines stl (lfLines cs)).2 := by
  induction cs generalizing stc stl with
  | nil => exact ⟨hie, hbuf, rfl⟩
  | cons c cs ih =>
    have hrc : '\r' ∉ c := h c (List.mem_cons_self c cs)
    have hcs : ∀ x ∈ cs, '\r' ∉ x := fun x hx => h x (List.mem_cons_of_mem c hx)
    have hbeq := isBeginLine_crlf_lf hrc
    have heeq := isEndLine_crlf_lf hrc
    have hc1 : crlfLines (c :: cs) = (c ++ ['\r', '\n']) :: crlfLines cs := rfl
    have hc2 : lfLines (c :: cs) = (c ++ ['\n']) :: lfLines cs := rfl
    rw [hc1, hc2]
    cases hb : isBeginLine (c ++ ['\n']) with
    | true =>
      have hbc : isBeginLine (c ++ ['\r', '\n']) = true := by
        rw [hbeq]
        exact hb
      rw [runLines_cons, runLines_cons, step_begin hb, step_begin hbc]
      obtain ⟨i1, i2, i3⟩ := ih hcs { inEvent := true, buf := c ++ ['\r', '\n'] }
        { inEvent := true, buf := c ++ ['\n'] } rfl (stripCR_crlf c hrc)
      exact ⟨i1, i2, by simpa using i3⟩
    | false =>
      have hbc : isBeginLine (c ++ ['\r', '\n']) = false := by
        rw [hbeq]
        exact hb
      cases hi : stl.inEvent with
      | false =>
        have hic : stc.inEvent = false := by
          rw [hie]
          exact hi
        rw [runLines_cons, runLines_cons, step_idle hbc hic, step_idle hb hi]
        obtain ⟨i1, i2, i3⟩ := ih hcs stc stl hie hbuf
        exact ⟨i1, i2, by simpa using i3⟩
      | true =>
        have hic : stc.inEvent = true := by
          rw [hie]
          exact hi
        cases he : isEndLine (c ++ ['\n']) with
        | false =>
          have hec : isEndLine (c ++ ['\r', '\n']) = false := by
            rw [heeq]
            exact he
          rw [runLines_cons, runLines_cons, step_inEvent_mid hbc hic hec,
            step_inEvent_mid hb hi he]
          obtain ⟨i1, i2, i3⟩ := ih hcs
            { inEvent := true, buf := stc.buf ++ (c ++ ['\r', '\n']) }
            { inEvent := true, buf := stl.buf ++ (c ++ ['\n']) } rfl
            (by rw [stripCR_append, hbuf, stripCR_crlf c hrc])
          exact ⟨i1, i2, by simpa using i3⟩
        | true =>
          have hec : isEndLine (c ++ ['\r', '\n']) = true := by
            rw [heeq]
            exact he
          rw [runLines_cons, runLines_cons, step_inEvent_end hbc hic hec,
            step_inEvent_end hb hi he]
          obtain ⟨i1, i2, i3⟩ := ih hcs { inEvent := false, buf := [] }
            { inEvent := false, buf := [] } rfl rfl
          refine ⟨i1, i2, ?_⟩
          show ([stc.buf ++ (c ++ ['\r', '\n'])] ++ _).map stripCR =
            [stl.buf ++ (c ++ ['\n'])] ++ _
          rw [List.map_append, i3, List.map_singleton, stripCR_append, hbuf,
            stripCR_crlf c hrc]

theorem splitLinesAux_line {c : Str} (hnl : '\n' ∉ c) (rest acc : List Char) :
    splitLinesAux (c ++ '\n' :: rest) acc =
      (((acc.reverse ++ c) ++ ['\n']) :: (splitLinesAux rest []).1,
        (splitLinesAux rest []).2) := by
  induction c generalizing acc with
  | nil =>
    show ((acc.reverse ++ ['\n']) :: (splitLinesAux rest []).1,
      (splitLinesAux rest []).2) = _
    simp
  | cons d ds ih =>
    simp only [List.mem_cons, not_or] at hnl
    have hd : ¬(d = '\n') := fun e => hnl.1 e.symm
    show splitLinesAux (d :: (ds ++ '\n' :: rest)) acc = _
    simp only [splitLinesAux, if_neg hd]
    rw [ih hnl.2]
    simp

/-- Rendering terminated lines back to bytes and splitting again gives
the same lines. -/
theorem splitLines_flattenLines (bs : List Str) (h : ∀ b ∈ bs, '\n' ∉ b) :
    (splitLines ((bs.map (fun b => b ++ ['\n'])).flatten)).1 =
      bs.map (fun b => b ++ ['\n']) := by
  induction bs with
  | nil => rfl
  | cons b bs ih =>
    have hb : '\n' ∉ b := h b (List.mem_cons_self b bs)
    have hbs : ∀ x ∈ bs, '\n' ∉ x := fun x hx => h x (List.mem_cons_of_mem b hx)
    show (splitLinesAux ((b ++ ['\n']) ++ _) []).1 = _
    rw [List.append_assoc]
    rw [show (['\n'] ++ (bs.map (fun b => b ++ ['\n'])).flatten) =
      '\n' :: (bs.map (fun b => b ++ ['\n'])).flatten from rfl]
    rw [splitLinesAux_line hb]
    simp only [List.reverse_nil, List.nil_append, List.map_cons]
    exact congrArg _ (ih hbs)

theorem scanBody_eof (url : Str) (chars : List Char) :
    scanBody url ⟨chars, EndKind.eof⟩ =
      (runLines initState (splitLines chars).1).2 ++
        (if (runLines initState (splitLines chars).1).1.buf = [] then []
         else [(runLines initState (splitLines chars).1).1.buf]) := rfl

theorem startsBeginB_ne_nil {u : Str} (h : startsBeginB u = true) : u ≠ [] :=
  fun e => Option.noConfusion (e ▸ startsBeginB_head h)

theorem crlfLines_eq (cs : List Str) :
    crlfLines cs = (cs.map (fun c => c ++ ['\r'])).map (fun b => b ++ ['\n']) := by
  rw [List.map_map]
  exact List.map_congr_left
    (fun c _ => (List.append_assoc c ['\r'] ['\n']).symm)

/-- C6: rendering the same event body with carriage-return line-feed
terminators instead of bare line-feed terminators yields, unit for unit,
the same `FetchICS` output after erasing carriage returns, and the
begin/end-marker tests recognize a line identically under either
terminator. -/
theorem fetchICS_terminator_equiv (url : Str) (cs : List Str)
    (h : ∀ c ∈ cs, '\r' ∉ c ∧ '\n' ∉ c) :
    (FetchICS url (some ⟨(crlfLines cs).flatten, EndKind.eof⟩)).map stripCR =
        FetchICS url (some ⟨(lfLines cs).flatten, EndKind.eof⟩) ∧
      ∀ c : Str, '\r' ∉ c →
        isBeginLine (c ++ ['\r', '\n']) = isBeginLine (c ++ ['\n']) ∧
          isEndLine (c ++ ['\r', '\n']) = isEndLine (c ++ ['\n']) := by
  refine ⟨?_, fun c hc => ⟨isBeginLine_crlf_lf hc, isEndLine_crlf_lf hc⟩⟩
  have hR : ∀ c ∈ cs, '\r' ∉ c := fun c hc => (h c hc).1
  have hN : ∀ c ∈ cs, '\n' ∉ c := fun c hc => (h c hc).2
  have hsplitL : (splitLines ((lfLines cs).flatten)).1 = lfLines cs :=
    splitLines_flattenLines cs hN
  have hsplitC : (splitLines ((crlfLines cs).flatten)).1 = crlfLines cs := by
    rw [crlfLines_eq]
    apply splitLines_flattenLines
    intro b hb
    rcases List.mem_map.1 hb with ⟨c, hc, rfl⟩
    intro hmem
    rcases List.mem_append.1 hmem with hmem | hmem
    · exact hN c hc hmem
    · exact absurd (List.mem_singleton.1 hmem) (by decide)
  have hdefC : FetchICS url (some ⟨(crlfLines cs).flatten, EndKind.eof⟩) =
      (runLines initState (crlfLines cs)).2 ++
        (if (runLines initState (crlfLines cs)).1.buf = [] then []
         else [(runLines initState (crlfLines cs)).1.buf]) := by
    rw [show FetchICS url (some ⟨(crlfLines cs).flatten, EndKind.eof⟩) =
      scanBody url ⟨(crlfLines cs).flatten, EndKind.eof⟩ from rfl]
    rw [scanBody_eof, hsplitC]
  have hdefL : FetchICS url (some ⟨(lfLines cs).flatten, EndKind.eof⟩) =
      (runLines initState (lfLines cs)).2 ++
        (if (runLines initState (lfLines cs)).1.buf = [] then []
         else [(runLines initState (lfLines cs)).1.buf]) := by
    rw [show FetchICS url (some ⟨(lfLines cs).flatten, EndKind.eof⟩) =
      scanBody url ⟨(lfLines cs).flatten, EndKind.eof⟩ from rfl]
    rw [scanBody_eof, hsplitL]
  obtain ⟨i1, i2, i3⟩ := runLines_crlf_lf cs hR initState initState rfl rfl
  rw [hdefC, hdefL, List.map_append, i3]
  have gC := (runLines_good (crlfLines cs) initState_good).1
  have gL := (runLines_good (lfLines cs) initState_good).1
  congr 1
  cases hie : (runLines initState (lfLines cs)).1.inEvent with
  | false =>
    have hbL : (runLines initState (lfLines cs)).1.buf = [] := gL.2 hie
    have hbC : (runLines initState (crlfLines cs)).1.buf = [] :=
      gC.2 (i1.trans hie)
    rw [if_pos hbL, if_pos hbC]
    rfl
  | true =>
    have hbC : (runLines initState (crlfLines cs)).1.buf ≠ [] :=
      startsBeginB_ne_nil (gC.1 (i1.trans hie))
    have hbL : (runLines initState (lfLines cs)).1.buf ≠ [] :=
      startsBeginB_ne_nil (gL.1 hie)
    rw [if_neg hbC, if_neg hbL, List.map_singleton, i2]

/-- Witness for C6 at a concrete three-line event body. -/
theorem fetchICS_terminator_equiv_witness :
    (FetchICS "u".toList
        (some ⟨(crlfLines ["BEGIN:VEVENT".toList, "SUMMARY:X".toList,
          "END:VEVENT".toList]).flatten, EndKind.eof⟩)).map stripCR =
        FetchICS "u".toList
          (some ⟨(lfLines ["BEGIN:VEVENT".toList, "SUMMARY:X".toList,
            "END:VEVENT".toList]).flatten, EndKind.eof⟩) ∧
      (isBeginLine ("END:VEVENT".toList ++ ['\r', '\n']) =
          isBeginLine ("END:VEVENT".toList ++ ['\n']) ∧
        isEndLine ("END:VEVENT".toList ++ ['\r', '\n']) =
          isEndLine ("END:VEVENT".toList ++ ['\n'])) :=
  ⟨(fetchICS_terminator_equiv "u".toList ["BEGIN:VEVENT".toList,
      "SUMMARY:X".toList, "END:VEVENT".toList] (by decide)).1,
   (fetchICS_terminator_equiv "u".toList ["BEGIN:VEVENT".toList,
      "SUMMARY:X".toList, "END:VEVENT".toList] (by decide)).2
     "END:VEVENT".toList (by decide)⟩

end Fetcher

namespace Combiner

/-- Go string less-than (bytewise lexicographic), as used by
`startTimeI < startTimeJ` in combineCalendars. -/
def strLt : Str → Str → Bool
  | [], [] => false
  | [], _ :: _ => true
  | _ :: _, [] => false
  | a :: as, b :: bs =>
    if a.toNat < b.toNat then true
    else if b.toNat < a.toNat then false
    else strLt as bs

theorem strLt_cons_iff {x y : Char} {xs ys : Str} :
    strLt (x :: xs) (y :: ys) = true ↔
      x.toNat < y.toNat ∨ (x.toNat = y.toNat ∧ strLt xs ys = true) := by
  simp only [strLt]
  by_cases h1 : x.toNat < y.toNat
  · simp [h1]
  · by_cases h2 : y.toNat < x.toNat
    · have h3 : ¬(x.toNat = y.toNat) := by omega
      simp [h1, h2, h3]
    · have h3 : x.toNat = y.toNat := by omega
      simp [h1, h2, h3]

theorem strLt_irrefl : ∀ (a : Str), strLt a a = false
  | [] => rfl
  | x :: xs => by
    simp only [strLt]
    rw [if_neg (Nat.lt_irrefl _), if_neg (Nat.lt_irrefl _)]
    exact strLt_irrefl xs

theorem strLt_trans (a : Str) : ∀ (b c : Str),
    strLt a b = true → strLt b c = true → strLt a c = true := by
  induction a with
  | nil =>
    intro b c h1 h2
    cases b with
    | nil => exact absurd h1 (by simp [strLt])
    | cons y ys =>
      cases c with
      | nil => exact absurd h2 (by simp [strLt])
      | cons z zs => rfl
  | cons x xs ih =>
    intro b c h1 h2
    cases b with
    | nil => exact absurd h1 (by simp [strLt])
    | cons y ys =>
      cases c with
      | nil => exact absurd h2 (by simp [strLt])
      | cons z zs =>
        rcases strLt_cons_iff.1 h1 with hxy | ⟨hxy, hts1⟩
        · rcases strLt_cons_iff.1 h2 with hyz | ⟨hyz, _⟩
          · exact strLt_cons_iff.2 (Or.inl (by omega))
          · exact strLt_cons_iff.2 (Or.inl (by omega))
        · rcases strLt_cons_iff.1 h2 with hyz | ⟨hyz, hts2⟩
          · exact strLt_cons_iff.2 (Or.inl (by omega))
          · exact strLt_cons_iff.2 (Or.inr ⟨by omega, ih ys zs hts1 hts2⟩)

theorem strLt_asymm {a b : Str} (h : strLt a b = true) : strLt b a = false := by
  cases hba : strLt b a with
  | false => rfl
  | true =>
    have hcon := strLt_trans a b a h hba
    rw [strLt_irrefl] at hcon
    exact Bool.noConfusion hcon

/-- Co-transitivity of the strict string order: if `x < z` then for any
`y`, `x < y` or `y < z`. -/
theorem strLt_or (x : Str) : ∀ (y z : Str),
    strLt x z = true → strLt x y = true ∨ strLt y z = true := by
  induction x with
  | nil =>
    intro y z h
    cases z with
    | nil => exact absurd h (by simp [strLt])
    | cons c cs =>
      cases y with
      | nil => exact Or.inr rfl
      | cons d ds => exact Or.inl rfl
  | cons x xs ih =>
    intro y z h
    cases z with
    | nil => exact absurd h (by simp [strLt])
    | cons c cs =>
      cases y with
      | nil => exact Or.inr rfl
      | cons d ds =>
        rcases strLt_cons_iff.1 h with hxc | ⟨hxc, hts⟩
        · rcases Nat.lt_trichotomy x.toNat d.toNat with hxd | hxd | hxd
          · exact Or.inl (strLt_cons_iff.2 (Or.inl hxd))
          · exact Or.inr (strLt_cons_iff.2 (Or.inl (by omega)))
          · exact Or.inr (strLt_cons_iff.2 (Or.inl (by omega)))
        · rcases Nat.lt_trichotomy x.toNat d.toNat with hxd | hxd | hxd
          · exact Or.inl (strLt_cons_iff.2 (Or.inl hxd))
          · rcases ih ds cs hts with h' | h'
            · exact Or.inl (strLt_cons_iff.2 (Or.inr ⟨hxd, h'⟩))
            · exact Or.inr (strLt_cons_iff.2 (Or.inr ⟨by omega, h'⟩))
          · exact Or.inr (strLt_cons_iff.2 (Or.inl (by omega)))

/-- An iCalendar property as the combiner uses it: its name
(IANA token) and its raw value. -/
structure ICalProperty where
  name : Str
  value : Str
  deriving DecidableEq

/-- A parsed VEVENT as the combiner sees it: its ordered property
list. -/
structure VEvent where
  props : List ICalProperty
  deriving DecidableEq

/-- The property name denoted by `ics.ComponentPropertyDtStart`. -/
def dtstartName : Str := "DTSTART".toList

/-- Model of `event.GetProperty(ics.ComponentPropertyDtStart)`: the
first property with the DTSTART name, or nil. -/
def getDtstart (e : VEvent) : Option ICalProperty :=
  e.props.find? (fun p => decide (p.name = dtstartName))

/-- The raw DTSTART value of an event, when the property exists. -/
def dtstart (e : VEvent) : Option Str := (getDtstart e).map ICalProperty.value

/-- The `sort.Slice` comparator of combineCalendars on the values the
code reads; `Option.getD` stands where the Go code dereferences the
property pointer (see `eventLessChecked` and C10 for the nil case). -/
def eventLess (e1 e2 : VEvent) : Bool :=
  strLt ((dtstart e1).getD []) ((dtstart e2).getD [])

/-- The comparator with the nil dereference made explicit: `none` is
the run-time nil-pointer fault of reading `.Value` on a missing
DTSTART. -/
def eventLessChecked (e1 e2 : VEvent) : Option Bool :=
  match dtstart e1, dtstart e2 with
  | some a, some b => some (strLt a b)
  | _, _ => none

/-- A parsed calendar as the combiner uses it: its event list (the
slice returned by `cal.Events()`). -/
structure Calendar where
  events : List VEvent
  deriving DecidableEq

/-- The documented contract of Go `sort.Slice` (a comparison sort that
is NOT guaranteed stable): the output is a permutation of the input
that is non-decreasing for the strict order `less`. -/
def SortSliceSpec (less : VEvent → VEvent → Bool)
    (input output : List VEvent) : Prop :=
  input.Perm output ∧ output.Pairwise (fun a b => less b a = false)

/-- One call of `combineCalendars cal1 cal2`, related to the state of
the two inputs after the call and its result: the slice
`append(cal1.Events(), cal2.Events()...)` is freshly built, `sort.Slice`
permutes only that local slice, each sorted event is added to a new
calendar, and no operation writes to `cal1` or `cal2`. -/
inductive CombineRun (cal1 cal2 : Calendar) :
    Calendar × Calendar × Calendar → Prop where
  | mk : ∀ sortedEvents,
      SortSliceSpec eventLess (cal1.events ++ cal2.events) sortedEvents →
      CombineRun cal1 cal2 (cal1, cal2, ⟨sortedEvents⟩)

/-- The possible result calendars of `combineCalendars cal1 cal2`. -/
def CombineResult (cal1 cal2 out : Calendar) : Prop :=
  CombineRun cal1 cal2 (cal1, cal2, out)

/-- The non-strict event order induced by the comparator. -/
def eventLe (a b : VEvent) : Prop := eventLess b a = false

instance : DecidableRel eventLe :=
  fun a b => inferInstanceAs (Decidable (eventLess b a = false))

instance : IsTotal VEvent eventLe :=
  ⟨fun a b => by
    cases h : eventLess b a with
    | false => exact Or.inl h
    | true => exact Or.inr (strLt_asymm h)⟩

instance : IsTrans VEvent eventLe :=
  ⟨fun a b c hab hbc => by
    unfold eventLe eventLess at hab hbc ⊢
    cases h : strLt ((dtstart c).getD []) ((dtstart a).getD []) with
    | false => rfl
    | true =>
      rcases strLt_or ((dtstart c).getD []) ((dtstart b).getD [])
        ((dtstart a).getD []) h with h' | h'
      · rw [h'] at hbc
        exact Bool.noConfusion hbc
      · rw [h'] at hab
        exact Bool.noConfusion hab⟩

/-- `sort.Slice` always delivers some output meeting its contract, so a
`combineCalendars` call always has a result in the model. -/
theorem combineResult_exists (cal1 cal2 : Calendar) :
    ∃ out, CombineResult cal1 cal2 out :=
  ⟨⟨List.insertionSort eventLe (cal1.events ++ cal2.events)⟩,
    CombineRun.mk _
      ⟨(List.perm_insertionSort eventLe _).symm,
        List.sorted_insertionSort eventLe _⟩⟩

/-- An event dated 20230101 with summary A. -/
def evA : VEvent :=
  ⟨[⟨"DTSTART".toList, "20230101".toList⟩, ⟨"SUMMARY".toList, "A".toList⟩]⟩

/-- A distinct event with the same date 20230101 and summary B. -/
def evB : VEvent :=
  ⟨[⟨"DTSTART".toList, "20230101".toList⟩, ⟨"SUMMARY".toList, "B".toList⟩]⟩

/-- A concrete run on the one-event calendars `[evA]` and `[evB]` that
keeps the input order of the two date-tied events. -/
theorem combineRun_example :
    CombineRun ⟨[evA]⟩ ⟨[evB]⟩ (⟨[evA]⟩, ⟨[evB]⟩, ⟨[evA, evB]⟩) := by
  refine CombineRun.mk [evA, evB] ⟨List.Perm.refl _, ?_⟩
  refine List.Pairwise.cons ?_ (List.Pairwise.cons (by simp) List.Pairwise.nil)
  intro b hb
  rw [List.mem_singleton] at hb
  subst hb
  decide

/-- C3 counterexample: `sort.Slice` is not stable, so on two calendars
whose events tie on the raw DTSTART value 20230101, the result that
swaps the two tied events is an admissible outcome of combineCalendars
— the "sort is stable" part of the claim is not guaranteed by the
code. -/
theorem combineCalendars_not_stable :
    CombineResult ⟨[evA]⟩ ⟨[evB]⟩ ⟨[evB, evA]⟩ ∧
      ([evB, evA] : List VEvent) ≠ [evA, evB] := by
  constructor
  · refine CombineRun.mk [evB, evA] ⟨List.Perm.swap evB evA [], ?_⟩
    refine List.Pairwise.cons ?_ (List.Pairwise.cons (by simp) List.Pairwise.nil)
    intro b hb
    rw [List.mem_singleton] at hb
    subst hb
    decide
  · decide

/-- C3 amended: combineCalendars yields a calendar with exactly a+b
events, in an order non-decreasing under lexicographic comparison of
the raw DTSTART strings; the relative order of events with equal
DTSTART values is unspecified (Go `sort.Slice` is not guaranteed
stable). -/
theorem combineCalendars_merge_sorted (cal1 cal2 : Calendar) :
    (∃ out, CombineResult cal1 cal2 out) ∧
      ∀ out, CombineResult cal1 cal2 out →
        out.events.length = cal1.events.length + cal2.events.length ∧
          out.events.Pairwise (fun a b =>
            strLt ((dtstart b).getD []) ((dtstart a).getD []) = false) := by
  refine ⟨combineResult_exists cal1 cal2, ?_⟩
  intro out hout
  cases hout with
  | mk sortedEvents hspec =>
    refine ⟨?_, hspec.2⟩
    have hlen := hspec.1.length_eq
    rw [List.length_append] at hlen
    exact hlen.symm

/-- Witness for the amended C3 on the concrete tied calendars. -/
theorem combineCalendars_merge_sorted_witness :
    (∃ out, CombineResult ⟨[evA]⟩ ⟨[evB]⟩ out) ∧
      (Calendar.mk [evA, evB]).events.length =
          (Calendar.mk [evA]).events.length +
            (Calendar.mk [evB]).events.length ∧
        (Calendar.mk [evA, evB]).events.Pairwise (fun a b =>
          strLt ((dtstart b).getD []) ((dtstart a).getD []) = false) :=
  ⟨(combineCalendars_merge_sorted ⟨[evA]⟩ ⟨[evB]⟩).1,
    (combineCalendars_merge_sorted ⟨[evA]⟩ ⟨[evB]⟩).2 ⟨[evA, evB]⟩
      combineRun_example⟩

/-- C8: a combineCalendars call constructs and returns a new calendar
and leaves both input calendars (their event lists and order) exactly
as they were. -/
theorem combineCalendars_no_mutation (cal1 cal2 c1 c2 out : Calendar)
    (h : CombineRun cal1 cal2 (c1, c2, out)) :
    c1 = cal1 ∧ c2 = cal2 := by
  cases h
  exact ⟨rfl, rfl⟩

/-- Witness for C8 on the concrete run. -/
theorem combineCalendars_no_mutation_witness :
    (Calendar.mk [evA]) = ⟨[evA]⟩ ∧ (Calendar.mk [evB]) = ⟨[evB]⟩ :=
  combineCalendars_no_mutation ⟨[evA]⟩ ⟨[evB]⟩ ⟨[evA]⟩ ⟨[evB]⟩ ⟨[evA, evB]⟩
    combineRun_example

/-- C10: if every event of both inputs carries a DTSTART property, then
every comparison the sort can evaluate — both arguments drawn from the
combined event list — avoids the nil dereference (the checked
comparator is `some`) and agrees with the total comparator the model
sorts by. -/
theorem combineCalendars_dtstart_total (cal1 cal2 : Calendar)
    (h1 : ∀ e ∈ cal1.events, (dtstart e).isSome = true)
    (h2 : ∀ e ∈ cal2.events, (dtstart e).isSome = true) :
    ∀ out, CombineResult cal1 cal2 out →
      ∀ e1 ∈ out.events, ∀ e2 ∈ out.events,
        (eventLessChecked e1 e2).isSome = true ∧
          eventLessChecked e1 e2 = some (eventLess e1 e2) := by
  intro out hout e1 he1 e2 he2
  have hall : ∀ e ∈ cal1.events ++ cal2.events, (dtstart e).isSome = true := by
    intro e he
    rcases List.mem_append.1 he with he | he
    · exact h1 e he
    · exact h2 e he
  cases hout with
  | mk sortedEvents hspec =>
    have hm1 : e1 ∈ cal1.events ++ cal2.events := hspec.1.mem_iff.2 he1
    have hm2' : e2 ∈ cal1.events ++ cal2.events := hspec.1.mem_iff.2 he2
    rcases Option.isSome_iff_exists.1 (hall e1 hm1) with ⟨a, ha⟩
    rcases Option.isSome_iff_exists.1 (hall e2 hm2') with ⟨b, hb⟩
    have hc : eventLessChecked e1 e2 = some (strLt a b) := by
      unfold eventLessChecked
      rw [ha, hb]
    have hl : eventLess e1 e2 = strLt a b := by
      unfold eventLess
      rw [ha, hb]
      rfl
    rw [hc, hl]
    exact ⟨rfl, rfl⟩

/-- Witness for C10 on the concrete dated calendars. -/
theorem combineCalendars_dtstart_total_witness :
    (eventLessChecked evA evB).isSome = true ∧
      eventLessChecked evA evB = some (eventLess evA evB) :=
  combineCalendars_dtstart_total ⟨[evA]⟩ ⟨[evB]⟩ (by decide) (by decide)
    ⟨[evA, evB]⟩ combineRun_example evA (by decide) evB (by decide)

end Combiner

namespace Aggregator

open Fetcher

/-- One source as aggregateICS configures it: its URL and the model of
its connection attempt. -/
abbrev Src : Type := Str × Option ByteStream

/-- The whole unit sequence fetcher `i` will send, fixed at launch:
`go fetcher.FetchICS(url, eventChan)` per configured URL. -/
def outputs (srcs : List Src) : List (List Str) :=
  srcs.map (fun p => FetchICS p.1 p.2)

/-- A state of the fan-in stage of aggregateICS: for each launched
fetcher the units it still has to send and whether its deferred
`wg.Done` has run; whether `eventChan` has been closed; and the units
the consumer has received so far, tagged with the index of the
producing fetcher. -/
structure AggState where
  procs : List (List Str × Bool)
  closed : Bool
  received : List (Nat × Str)
  deriving DecidableEq

/-- The observable actions of the fan-in stage. -/
inductive AggLabel where
  | send : Nat → AggLabel
  | ret : Nat → AggLabel
  | close : AggLabel
  deriving DecidableEq

/-- Interleaving semantics of aggregateICS: a still-running fetcher
rendezvouses its next unit with the consumer over the unbuffered
channel (`eventChan <- …` / `<-eventChan`); a fetcher whose units are
exhausted returns, running its deferred `wg.Done`; the closer goroutine
runs `wg.Wait()` then `close(eventChan)`, so it can fire only once and
only when every fetcher is done. -/
inductive AggStep : AggState → AggLabel → AggState → Prop where
  | send : ∀ (s : AggState) (i : Nat) (u : Str) (rest : List Str),
      s.procs.get? i = some (u :: rest, false) →
      AggStep s (AggLabel.send i)
        { procs := s.procs.set i (rest, false),
          closed := s.closed,
          received := s.received ++ [(i, u)] }
  | ret : ∀ (s : AggState) (i : Nat),
      s.procs.get? i = some ([], false) →
      AggStep s (AggLabel.ret i)
        { procs := s.procs.set i ([], true),
          closed := s.closed,
          received := s.received }
  | close : ∀ (s : AggState),
      (∀ p ∈ s.procs, p.2 = true) →
      s.closed = false →
      AggStep s AggLabel.close
        { procs := s.procs, closed := true, received := s.received }

/-- A finite execution of the fan-in stage. -/
inductive AggTrace : AggState → List AggLabel → AggState → Prop where
  | nil : ∀ s, AggTrace s [] s
  | cons : ∀ {s s' s'' : AggState} {l : AggLabel} {ls : List AggLabel},
      AggStep s l s' → AggTrace s' ls s'' → AggTrace s (l :: ls) s''

/-- The state of aggregateICS right after launching one FetchICS per
configured URL and the closer goroutine: nothing sent, nobody done, the
channel open. -/
def initAgg (srcs : List Src) : AggState :=
  { procs := (outputs srcs).map (fun out => (out, false)),
    closed := false,
    received := [] }

/-- The units the consumer has received from fetcher `i`, in order. -/
def recvd (s : AggState) (i : Nat) : List Str :=
  (s.received.filter (fun pr => pr.1 == i)).map Prod.snd

/-- The inductive invariant of the fan-in stage: one process entry per
source; a done fetcher has nothing left to send; per source, what the
consumer received followed by what remains is exactly that source's
output; the channel is closed only with every fetcher done; and the
total received count plus the total remaining count is the total output
count. -/
def Inv (srcs : List Src) (s : AggState) : Prop :=
  s.procs.length = srcs.length ∧
  (∀ i rem d, s.procs.get? i = some (rem, d) →
      (d = true → rem = []) ∧
      ∃ out, (outputs srcs).get? i = some out ∧ recvd s i ++ rem = out) ∧
  (s.closed = true → ∀ p ∈ s.procs, p.2 = true) ∧
  s.received.length + (s.procs.map (fun p => p.1.length)).sum =
    ((outputs srcs).map List.length).sum

theorem recvd_append_one (l : List (Nat × Str)) (i j : Nat) (u : Str) :
    ((l ++ [(i, u)]).filter (fun pr => pr.1 == j)).map Prod.snd =
      (l.filter (fun pr => pr.1 == j)).map Prod.snd ++
        (if i = j then [u] else []) := by
  rw [List.filter_append, List.map_append]
  by_cases h : i = j
  · simp [h]
  · have hb : (i == j) = false := beq_eq_false_iff_ne.2 h
    simp [List.filter, hb, h]

theorem sum_map_set {α : Type} (f : α → Nat) :
    ∀ (l : List α) (i : Nat) (a b : α), l.get? i = some a →
      ((l.set i b).map f).sum + f a = (l.map f).sum + f b := by
  intro l
  induction l with
  | nil => intro i a b h; exact absurd h (by simp)
  | cons x xs ih =>
    intro i a b h
    cases i with
    | zero =>
      have hx : x = a := by
        have := Option.some.inj h
        exact this
      subst hx
      simp only [List.set, List.map_cons, List.sum_cons]
      omega
    | succ n =>
      have hrec := ih n a b h
      simp only [List.set, List.map_cons, List.sum_cons]
      omega

theorem inv_init (srcs : List Src) : Inv srcs (initAgg srcs) := by
  refine ⟨?_, ?_, ?_, ?_⟩
  · simp [initAgg, outputs]
  · intro i rem d h
    simp only [initAgg, List.get?_map] at h
    cases hout : (outputs srcs).get? i with
    | none =>
      rw [hout] at h
      exact Option.noConfusion h
    | some o =>
      rw [hout, Option.map_some'] at h
      have hpair := Option.some.inj h
      have hrem : rem = o := (congrArg Prod.fst hpair).symm
      have hd : d = false := (congrArg Prod.snd hpair).symm
      refine ⟨fun hd' => ?_, o, rfl, ?_⟩
      · rw [hd'] at hd
        exact Bool.noConfusion hd
      · rw [hrem]
        exact List.nil_append o
  · intro hcon
    exact absurd hcon (by simp [initAgg])
  · simp only [initAgg, List.map_map, List.length_nil, Nat.zero_add]
    rfl

theorem inv_step {srcs : List Src} {s : AggState} {l : AggLabel} {s' : AggState}
    (hinv : Inv srcs s) (hstep : AggStep s l s') : Inv srcs s' := by
  obtain ⟨hlen, hper, hclosed, hsum⟩ := hinv
  cases hstep with
  | send i u rest hget =>
    have hib : i < s.procs.length := by
      rcases List.get?_eq_some.1 hget with ⟨hb, _⟩
      exact hb
    refine ⟨?_, ?_, ?_, ?_⟩
    · rw [List.length_set]
      exact hlen
    · intro j rem d hj
      by_cases hji : j = i
      · rw [hji] at hj ⊢
        rw [List.get?_set_eq_of_lt _ hib] at hj
        have hpair := Option.some.inj hj
        have hrem : rem = rest := (congrArg Prod.fst hpair).symm
        have hd : d = false := (congrArg Prod.snd hpair).symm
        obtain ⟨_, out, hout, hrec⟩ := hper i (u :: rest) false hget
        refine ⟨fun hd' => ?_, out, hout, ?_⟩
        · rw [hd'] at hd
          exact Bool.noConfusion hd
        · show ((s.received ++ [(i, u)]).filter
            (fun pr => pr.1 == i)).map Prod.snd ++ rem = out
          rw [recvd_append_one, if_pos rfl, hrem, List.append_assoc]
          exact hrec
      · have hji' : i ≠ j := fun e => hji e.symm
        rw [List.get?_set_ne _ _ hji'] at hj
        obtain ⟨hdone, out, hout, hrec⟩ := hper j rem d hj
        refine ⟨hdone, out, hout, ?_⟩
        show ((s.received ++ [(i, u)]).filter
            (fun pr => pr.1 == j)).map Prod.snd ++ rem = out
        rw [recvd_append_one, if_neg hji', List.append_nil]
        exact hrec
    · intro hcon
      have hall := hclosed hcon
      have := hall _ (List.get?_mem hget)
      exact absurd this (by simp)
    · have hkey := sum_map_set (fun p => p.1.length) s.procs i
        (u :: rest, false) (rest, false) hget
      simp only [List.length_cons] at hkey
      simp only [List.length_append, List.length_singleton]
      omega
  | ret i hget =>
    refine ⟨?_, ?_, ?_, ?_⟩
    · rw [List.length_set]
      exact hlen
    · intro j rem d hj
      by_cases hji : j = i
      · rw [hji] at hj ⊢
        have hib : i < s.procs.length := by
          rcases List.get?_eq_some.1 hget with ⟨hb, _⟩
          exact hb
        rw [List.get?_set_eq_of_lt _ hib] at hj
        have hpair := Option.some.inj hj
        have hrem : rem = [] := (congrArg Prod.fst hpair).symm
        subst hrem
        obtain ⟨_, out, hout, hrec⟩ := hper i [] false hget
        exact ⟨fun _ => rfl, out, hout, hrec⟩
      · have hji' : i ≠ j := fun e => hji e.symm
        rw [List.get?_set_ne _ _ hji'] at hj
        exact hper j rem d hj
    · intro hcon
      have hall := hclosed hcon
      have := hall _ (List.get?_mem hget)
      exact absurd this (by simp)
    · have hkey := sum_map_set (fun p => p.1.length) s.procs i
        ([], false) ([], true) hget
      simp only [List.length_nil] at hkey
      show s.received.length +
          ((s.procs.set i ([], true)).map (fun p => p.1.length)).sum =
        ((outputs srcs).map List.length).sum
      omega
  | close hall hopen =>
    exact ⟨hlen, hper, fun _ => hall, hsum⟩

theorem inv_trace {srcs : List Src} {s : AggState} {tr : List AggLabel}
    {s' : AggState} (hinv : Inv srcs s) (h : AggTrace s tr s') : Inv srcs s' := by
  induction h with
  | nil => exact hinv
  | cons hstep _ ih => exact ih (inv_step hinv hstep)

theorem closed_stays {s : AggState} {tr : List AggLabel} {s' : AggState}
    (h : AggTrace s tr s') : s.closed = true →
      s'.closed = true ∧ AggLabel.close ∉ tr := by
  induction h with
  | nil =>
    intro hc
    exact ⟨hc, List.not_mem_nil _⟩
  | cons hstep htr ih =>
    intro hc
    cases hstep with
    | send i u rest hget =>
      obtain ⟨h1, h2⟩ := ih hc
      exact ⟨h1, by simp [h2]⟩
    | ret i hget =>
      obtain ⟨h1, h2⟩ := ih hc
      exact ⟨h1, by simp [h2]⟩
    | close hall hopen =>
      rw [hc] at hopen
      exact Bool.noConfusion hopen

theorem close_count_one {s : AggState} {tr : List AggLabel} {s' : AggState}
    (h : AggTrace s tr s') : s.closed = false → s'.closed = true →
      tr.count AggLabel.close = 1 := by
  induction h with
  | nil =>
    intro h0 hc
    rw [h0] at hc
    exact Bool.noConfusion hc
  | cons hstep htr ih =>
    intro h0 hc
    cases hstep with
    | send i u rest hget =>
      rw [List.count_cons_of_ne (by simp)]
      exact ih h0 hc
    | ret i hget =>
      rw [List.count_cons_of_ne (by simp)]
      exact ih h0 hc
    | close hall hopen =>
      have h2 := (closed_stays htr rfl).2
      rw [List.count_cons_self, List.count_eq_zero.2 h2]

theorem done_requires_ret {s : AggState} {tr : List AggLabel} {s' : AggState}
    (h : AggTrace s tr s') (i : Nat) :
    ∀ rem rem', s.procs.get? i = some (rem, false) →
      s'.procs.get? i = some (rem', true) → AggLabel.ret i ∈ tr := by
  induction h with
  | nil =>
    intro rem rem' h0 h1
    rw [h0] at h1
    exact absurd (congrArg Prod.snd (Option.some.inj h1)) (by simp)
  | @cons sa mid sb l ls hstep htr ih =>
    intro rem rem' h0 h1
    cases hstep with
    | send j u rest hget =>
      by_cases hji : j = i
      · rw [hji] at hget
        have hib : i < sa.procs.length := by
          rcases List.get?_eq_some.1 hget with ⟨hb, _⟩
          exact hb
        have hpost : (sa.procs.set j (rest, false)).get? i = some (rest, false) := by
          rw [hji]
          exact List.get?_set_eq_of_lt _ hib
        exact List.mem_cons_of_mem _ (ih rest rem' hpost h1)
      · have hpost : (sa.procs.set j (rest, false)).get? i = some (rem, false) := by
          rw [List.get?_set_ne _ _ hji]
          exact h0
        exact List.mem_cons_of_mem _ (ih rem rem' hpost h1)
    | ret j hget =>
      by_cases hji : j = i
      · rw [hji]
        exact List.mem_cons_self _ _
      · have hpost : (sa.procs.set j ([], true)).get? i = some (rem, false) := by
          rw [List.get?_set_ne _ _ hji]
          exact h0
        exact List.mem_cons_of_mem _ (ih rem rem' hpost h1)
    | close hall hopen =>
      exact List.mem_cons_of_mem _ (ih rem rem' h0 h1)

theorem aggTrace_append {t1 : List AggLabel} {s : AggState} {t2 : List AggLabel}
    {s' : AggState} (h : AggTrace s (t1 ++ t2) s') :
    ∃ m, AggTrace s t1 m ∧ AggTrace m t2 s' := by
  induction t1 generalizing s with
  | nil => exact ⟨s, AggTrace.nil s, h⟩
  | cons l ls ih =>
    cases h with
    | cons hstep htr =>
      rcases ih htr with ⟨m, hm1, hm2⟩
      exact ⟨m, AggTrace.cons hstep hm1, hm2⟩

/-- C2: in any execution of the fan-in stage launched on the configured
sources that ends with the channel closed: the close action happened
exactly once; at the moment of closing, every launched fetcher had
already returned (each `ret i` precedes the `close` in the trace); the
consumer received exactly the sum over all sources of the number of
units that source's FetchICS emits (sentinel units included); and per
source it received exactly that source's units, in order. -/
theorem aggregateICS_fanin (srcs : List Src) (tr : List AggLabel)
    (s' : AggState) (h : AggTrace (initAgg srcs) tr s')
    (hc : s'.closed = true) :
    tr.count AggLabel.close = 1 ∧
      (∀ t1 t2, tr = t1 ++ AggLabel.close :: t2 →
        ∀ i, i < srcs.length → AggLabel.ret i ∈ t1) ∧
      s'.received.length = ((outputs srcs).map List.length).sum ∧
      (∀ i out, (outputs srcs).get? i = some out → recvd s' i = out) := by
  obtain ⟨hlen, hper, hclosed, hsum⟩ := inv_trace (inv_init srcs) h
  have houtlen : (outputs srcs).length = srcs.length := by simp [outputs]
  refine ⟨close_count_one h rfl hc, ?_, ?_, ?_⟩
  · intro t1 t2 htr i hi
    subst htr
    rcases aggTrace_append h with ⟨m, hm1, hm2⟩
    cases hm2 with
    | cons hstep htr2 =>
      cases hstep with
      | close hall hopen =>
        obtain ⟨hlenm, hperm, _, _⟩ := inv_trace (inv_init srcs) hm1
        have hib : i < m.procs.length := by
          rw [hlenm]
          exact hi
        cases hmp : m.procs.get? i with
        | none =>
          rw [List.get?_eq_none] at hmp
          omega
        | some p =>
          have hdone : p.2 = true := hall p (List.get?_mem hmp)
          have hinit : (initAgg srcs).procs.get? i =
              ((outputs srcs).get? i).map (fun out => (out, false)) := by
            simp [initAgg, List.get?_map]
          cases houts : (outputs srcs).get? i with
          | none =>
            rw [List.get?_eq_none] at houts
            omega
          | some o =>
            rw [houts, Option.map_some'] at hinit
            have hp : m.procs.get? i = some (p.1, true) := by
              rw [hmp, ← hdone]
            exact done_requires_ret hm1 i o p.1 hinit hp
  · have hall := hclosed hc
    have hzero : (s'.procs.map (fun p => p.1.length)).sum = 0 := by
      apply List.sum_eq_zero
      intro x hx
      rcases List.mem_map.1 hx with ⟨p, hp, rfl⟩
      rcases List.mem_iff_get?.1 hp with ⟨n, hn⟩
      obtain ⟨hdone, _⟩ := hper n p.1 p.2 hn
      rw [hdone (hall p hp)]
      rfl
    omega
  · intro i o ho
    have hib : i < s'.procs.length := by
      rcases List.get?_eq_some.1 ho with ⟨hb, _⟩
      rw [hlen]
      omega
    cases hmp : s'.procs.get? i with
    | none =>
      rw [List.get?_eq_none] at hmp
      omega
    | some p =>
      obtain ⟨hdone, o2, ho2, hrec⟩ := hper i p.1 p.2 hmp
      have hd : p.2 = true := hclosed hc p (List.get?_mem hmp)
      rw [ho] at ho2
      have hoo := Option.some.inj ho2
      rw [hdone hd, List.append_nil] at hrec
      rw [hrec]
      exact hoo.symm

/-- Witness for C2: one source whose connection fails, so its FetchICS
emits exactly the one fetch sentinel; the trace sends it, returns, and
closes. -/
theorem aggregateICS_fanin_witness :
    ([AggLabel.send 0, AggLabel.ret 0, AggLabel.close].count AggLabel.close
        = 1) ∧
      AggLabel.ret 0 ∈ [AggLabel.send 0, AggLabel.ret 0] ∧
      (AggState.mk [([], true)] true
          [(0, errFetch "u".toList)]).received.length =
        ((outputs [("u".toList, (none : Option ByteStream))]).map
          List.length).sum ∧
      recvd (AggState.mk [([], true)] true [(0, errFetch "u".toList)]) 0 =
        FetchICS "u".toList none := by
  have htrace : AggTrace (initAgg [("u".toList, (none : Option ByteStream))])
      [AggLabel.send 0, AggLabel.ret 0, AggLabel.close]
      (AggState.mk [([], true)] true [(0, errFetch "u".toList)]) := by
    refine AggTrace.cons (AggStep.send _ 0 (errFetch "u".toList) [] rfl) ?_
    refine AggTrace.cons (AggStep.ret _ 0 rfl) ?_
    refine AggTrace.cons (AggStep.close _ (by decide) rfl) ?_
    exact AggTrace.nil _
  have H := aggregateICS_fanin [("u".toList, (none : Option ByteStream))]
    [AggLabel.send 0, AggLabel.ret 0, AggLabel.close]
    (AggState.mk [([], true)] true [(0, errFetch "u".toList)]) htrace rfl
  exact ⟨H.1,
    H.2.1 [AggLabel.send 0, AggLabel.ret 0] [] rfl 0 (by decide),
    H.2.2.1,
    H.2.2.2 0 (FetchICS "u".toList none) rfl⟩

end Aggregator
